import Mathlib

/-!
Verification of the avro C value engine (src/lang/c/src) against its
natural-language specification.  The definitions below are a shallow
embedding of the C sources: `raw_resolvers.c`, `consumer.c`, `string.c`,
`map.c`, `schema_specific.c` and the declarations in `avro/data.h` and
`avro/specific.h`.  Machine pointers are modelled as natural-number ids
allocated from a counter; the C heap is an association list from ids to
node values; fallible C functions returning null/error codes become
`Option`/`Except`.
-/

namespace Avro

/-- The `EINVAL` errno value returned by the C code on failure paths. -/
def EINVAL : Nat := 22

/-! ### Schemas

Avro schemas, as consumed by the resolver compiler and the specific-type
generator.  A `linkS` node holds its resolved target directly (the schema
parser, which builds the link table, is out of scope); the claims settled
here only need finite schema trees.  Branch and field lists are their own
mutual inductives so that decidable equality can be derived. -/

mutual

inductive Schema where
  | nullS : Schema
  | booleanS : Schema
  | intS : Schema
  | longS : Schema
  | floatS : Schema
  | doubleS : Schema
  | bytesS : Schema
  | stringS : Schema
  | fixedS (name : String) (size : Nat) : Schema
  | enumS (name : String) (symbols : List String) : Schema
  | arrayS (items : Schema) : Schema
  | mapS (values : Schema) : Schema
  | recordS (name : String) (fields : FieldList) : Schema
  | unionS (branches : SchemaList) : Schema
  | linkS (target : Schema) : Schema

inductive SchemaList where
  | nil : SchemaList
  | cons (head : Schema) (tail : SchemaList) : SchemaList

inductive FieldList where
  | fnil : FieldList
  | fcons (name : String) (fschema : Schema) (tail : FieldList) : FieldList

end

deriving instance DecidableEq for Schema
deriving instance Repr for Schema

/-- Number of branches in a `SchemaList` (`avro_schema_union_size`). -/
def SchemaList.length : SchemaList → Nat
  | .nil => 0
  | .cons _ tl => tl.length + 1

/-- The i-th branch of a `SchemaList` (`avro_schema_union_branch`). -/
def SchemaList.get? : SchemaList → Nat → Option Schema
  | .nil, _ => none
  | .cons hd _, 0 => some hd
  | .cons _ tl, n + 1 => tl.get? n

/-- Membership in a `SchemaList`. -/
def SchemaList.mem (s : Schema) : SchemaList → Prop
  | .nil => False
  | .cons hd tl => s = hd ∨ tl.mem s

def SchemaList.memDec (s : Schema) : (l : SchemaList) → Decidable (l.mem s)
  | .nil => isFalse (fun h => h)
  | .cons hd tl =>
    match memDec s tl with
    | isTrue h => isTrue (Or.inr h)
    | isFalse h =>
      if he : s = hd then isTrue (Or.inl he)
      else isFalse (fun hh => hh.elim he h)

instance (s : Schema) (l : SchemaList) : Decidable (l.mem s) :=
  SchemaList.memDec s l

/-- Number of fields in a `FieldList` (`avro_schema_record_size`). -/
def FieldList.length : FieldList → Nat
  | .fnil => 0
  | .fcons _ _ tl => tl.length + 1

/-! ### Memoization cache (`avro_memoize_t`, declared in `avro/data.h`)

Modelled from the spec: the implementation of `avro_memoize_get` /
`avro_memoize_set` / `avro_memoize_delete` is not under `src/`; `avro/data.h`
documents it as a map from two keys to a single pointer, where `set`
overwrites an existing binding and `delete` removes any binding for the
keys.  The first key is one of the per-target sentinels, the second the
writer schema handle. -/

abbrev Memo (κ : Type) := List ((κ × Schema) × Nat)

/-- An `avro_memoize_t` with no entries (`avro_memoize_init`). -/
def memoInit (κ : Type) : Memo κ := []

/-- `avro_memoize_get`: the cached resolver for `(k, w)`, if any. -/
def memoGet [DecidableEq κ] : Memo κ → κ → Schema → Option Nat
  | [], _, _ => none
  | (key, v) :: rest, k, w => if key = (k, w) then some v else memoGet rest k w

/-- Remove every binding for `(k, w)` (`avro_memoize_delete`). -/
def memoDelete [DecidableEq κ] (m : Memo κ) (k : κ) (w : Schema) : Memo κ :=
  m.filter (fun e => decide (e.1 ≠ (k, w)))

/-- `avro_memoize_set`: bind `(k, w)` to `v`, overwriting if necessary. -/
def memoSet [DecidableEq κ] (m : Memo κ) (k : κ) (w : Schema) (v : Nat) : Memo κ :=
  ((k, w), v) :: memoDelete m k w

/-! ### Consumers and specific resolvers

`avro_consumer_t` (from `avro/consumer.h`) carries a retained writer schema,
a callbacks record, and an optional vector of child consumers;
`avro_specific_resolver_t` (from `avro/specific.h`) extends it with a
`branch_selector`.  A node lives at a heap address (a `Nat` id); null
child-consumer pointers are `none` entries. -/

/-- Which callback slot of `avro_consumer_callbacks_t` is set on a node.
`memset` leaves every slot null (`noCb`); each `avro_raw_<T>_try` sets
exactly one value callback, and `avro_specific_resolve_writer_union` sets
`union_branch` on success. -/
inductive RCallback where
  | noCb : RCallback
  | booleanCb : RCallback
  | bytesCb : RCallback
  | doubleCb : RCallback
  | floatCb : RCallback
  | intCb : RCallback
  | longCb : RCallback
  | nullCb : RCallback
  | stringCb : RCallback
  | unionBranchCb : RCallback
deriving Repr, DecidableEq

/-- An `avro_specific_resolver_t` node.  `branchSelector` records whether the
`branch_selector` pointer is non-null; it is null on every node built by
`raw_resolvers.c`. -/
structure RNode where
  schema : Schema
  callback : RCallback
  children : List (Option Nat)
  branchSelector : Bool
deriving Repr, DecidableEq

/-- The eight primitive target kinds of the `AVRO_MEMOIZED` family; each has
its own static `avro_raw_<T>_memoize_key` sentinel, so the kind itself serves
as the first memoization key. -/
inductive RawKind where
  | booleanK : RawKind
  | bytesK : RawKind
  | doubleK : RawKind
  | floatK : RawKind
  | intK : RawKind
  | longK : RawKind
  | nullK : RawKind
  | stringK : RawKind
deriving Repr, DecidableEq

/-- The `is_avro_<T>(wschema)` test guarding each `avro_raw_<T>_try`: an
exact writer-kind match, with no numeric promotion. -/
def RawKind.accepts : RawKind → Schema → Bool
  | .booleanK, .booleanS => true
  | .bytesK, .bytesS => true
  | .doubleK, .doubleS => true
  | .floatK, .floatS => true
  | .intK, .intS => true
  | .longK, .longS => true
  | .nullK, .nullS => true
  | .stringK, .stringS => true
  | _, _ => false

/-- The value callback installed by `avro_raw_<T>_try`. -/
def RawKind.valueCb : RawKind → RCallback
  | .booleanK => .booleanCb
  | .bytesK => .bytesCb
  | .doubleK => .doubleCb
  | .floatK => .floatCb
  | .intK => .intCb
  | .longK => .longCb
  | .nullK => .nullCb
  | .stringK => .stringCb

/-- The allocator and memoization state threaded through resolver
construction: a fresh-id counter, the memoize cache, and the heap of live
consumer nodes. -/
structure BuildState (κ : Type) where
  nextId : Nat
  cache : Memo κ
  nodes : List (Nat × RNode)
deriving Repr, DecidableEq

/-- Heap read at address `id`. -/
def nodeGet (st : BuildState κ) (id : Nat) : Option RNode :=
  (st.nodes.find? (fun p => p.1 == id)).map (·.2)

/-- In-place field update of the node at live address `id`. -/
def nodeSet (st : BuildState κ) (id : Nat) (n : RNode) : BuildState κ :=
  { st with nodes := (id, n) :: st.nodes.filter (fun p => decide (p.1 ≠ id)) }

/-- Release the node at address `id` (`avro_consumer_free` on a node with no
live children). -/
def nodeFree (st : BuildState κ) (id : Nat) : BuildState κ :=
  { st with nodes := st.nodes.filter (fun p => decide (p.1 ≠ id)) }

/-- `avro_raw_<T>_try` for target kind `k`: if the writer schema has exactly
the matching kind, allocate a consumer, install the value callback and the
retained schema, record it in the cache under `(k, w)` and return it;
otherwise return null and leave everything unchanged. -/
def rawTry (k : RawKind) (st : BuildState RawKind) (w : Schema) :
    Option Nat × BuildState RawKind :=
  if k.accepts w then
    let id := st.nextId
    (some id,
      { nextId := id + 1,
        cache := memoSet st.cache k w id,
        nodes := (id, ⟨w, k.valueCb, [], false⟩) :: st.nodes })
  else
    (none, st)

mutual

/-- The body of the `AVRO_MEMOIZED(T)` macro, `avro_raw_<T>_resolver_memoized`:
cache lookup first (this breaks recursion), then `avro_raw_<T>_try`, then the
writer-union path with `try_branch = avro_raw_<T>_resolver_memoized`. -/
def rawResolverMemoized (k : RawKind) (st : BuildState RawKind) (w : Schema) :
    Option Nat × BuildState RawKind :=
  match memoGet st.cache k w with
  | some id => (some id, st)
  | none =>
    match rawTry k st w with
    | (some id, st') => (some id, st')
    | (none, _) => resolveWriterUnionMem k st w
termination_by (sizeOf w, 1)

/-- `avro_specific_resolve_writer_union`, instantiated (as in the
`AVRO_MEMOIZED` macro) with `rschema_key = &avro_raw_<T>_memoize_key` and
`try_branch = avro_raw_<T>_resolver_memoized`: allocate the union consumer,
record it in the cache before recursing, resolve every branch, and fail —
releasing the consumer and deleting the cache entry — iff no branch is
compatible. -/
def resolveWriterUnionMem (k : RawKind) (st : BuildState RawKind) (w : Schema) :
    Option Nat × BuildState RawKind :=
  match w with
  | .unionS branches =>
    let id := st.nextId
    let st1 : BuildState RawKind :=
      { nextId := id + 1,
        cache := memoSet st.cache k (.unionS branches) id,
        nodes := (id, ⟨.unionS branches, .noCb,
                       List.replicate branches.length none, false⟩) :: st.nodes }
    let (kids, st2) := tryBranchesMem k st1 branches
    if kids.any Option.isSome then
      (some id, nodeSet st2 id ⟨.unionS branches, .unionBranchCb, kids, false⟩)
    else
      let st3 := nodeFree st2 id
      (none, { st3 with cache := memoDelete st3.cache k (.unionS branches) })
  | _ => (none, st)
termination_by (sizeOf w, 0)

/-- The branch loop of `avro_specific_resolve_writer_union` (memoized
instantiation): resolve each writer-union branch in order, threading the
cache, collecting `child_consumers` entries (null for incompatible
branches). -/
def tryBranchesMem (k : RawKind) (st : BuildState RawKind) :
    SchemaList → List (Option Nat) × BuildState RawKind
  | .nil => ([], st)
  | .cons b rest =>
    let (r, st1) := rawResolverMemoized k st b
    let (rs, st2) := tryBranchesMem k st1 rest
    (r :: rs, st2)
termination_by bs => (sizeOf bs, 2)

end

/-- The branch loop of `avro_specific_resolve_writer_union` for an arbitrary
`try_branch` function (the C function takes it as a parameter). -/
def tryBranchesG [DecidableEq κ]
    (tb : BuildState κ → Schema → Option Nat × BuildState κ)
    (st : BuildState κ) : SchemaList → List (Option Nat) × BuildState κ
  | .nil => ([], st)
  | .cons b rest =>
    let (r, st1) := tb st b
    let (rs, st2) := tryBranchesG tb st1 rest
    (r :: rs, st2)

/-- `avro_specific_resolve_writer_union` with its `try_branch` parameter
abstract, exactly as in `raw_resolvers.c`: non-unions are rejected; the union
consumer is allocated and recorded in the cache before the branch loop; if no
branch resolved, the consumer is freed, the cache entry deleted, and null
returned; otherwise `union_branch` is installed and the consumer returned. -/
def resolveWriterUnionG [DecidableEq κ]
    (tb : BuildState κ → Schema → Option Nat × BuildState κ)
    (key : κ) (st : BuildState κ) (w : Schema) : Option Nat × BuildState κ :=
  match w with
  | .unionS branches =>
    let id := st.nextId
    let st1 : BuildState κ :=
      { nextId := id + 1,
        cache := memoSet st.cache key (.unionS branches) id,
        nodes := (id, ⟨.unionS branches, .noCb,
                       List.replicate branches.length none, false⟩) :: st.nodes }
    let (kids, st2) := tryBranchesG tb st1 branches
    if kids.any Option.isSome then
      (some id, nodeSet st2 id ⟨.unionS branches, .unionBranchCb, kids, false⟩)
    else
      let st3 := nodeFree st2 id
      (none, { st3 with cache := memoDelete st3.cache key (.unionS branches) })
  | _ => (none, st)

/-- `avro_specific_writer_union_branch`: look up `child_consumers[i]`; a null
child is the `IncompatibleBranch` runtime error (`EINVAL`), otherwise the
child consumer and the unchanged `user_data` are produced.  (The C code
indexes the child array without a bounds check; the claims below only invoke
in-range discriminants.) -/
def writerUnionBranch (consumer : RNode) (discriminant : Nat) (userData : α) :
    Except Nat (Nat × α) :=
  match consumer.children[discriminant]? with
  | some (some branch) => .ok (branch, userData)
  | _ => .error EINVAL

/-- `avro_raw_long_value`: with a null `branch_selector` (as on every node
built by `raw_resolvers.c`), `user_data` is the destination `int64_t` slot;
the callback overwrites the slot with the value and returns 0. -/
def rawLongValue (value : Int) (_dest : Int) : Nat × Int :=
  (0, value)

/-- `avro_raw_<T>_resolver_new`: initialize a fresh memoize table, run the
memoized resolver, finalize the table (which releases only the cache, not the
consumers), and return the consumer together with the heap of built nodes. -/
def rawResolverNew (k : RawKind) (w : Schema) : Option Nat × List (Nat × RNode) :=
  let (r, st) := rawResolverMemoized k ⟨0, memoInit RawKind, []⟩ w
  (r, st.nodes)

/-! ### Consumer graphs and `avro_consumer_free` (`consumer.c`)

A finished consumer graph has `k` nodes living at addresses `Fin k`; an edge
vector per node models `child_consumers` (null entries are `none`).  The
visited set threaded by `avro_consumer_free_cycles` is an `st` numeric table
(`st.c` is not under `src/`); modelled from the spec ("the release traversal
must mark visited nodes (e.g., via a visited-set parameter)") as a
`Finset (Fin k)`. -/

abbrev ConsumerGraph (k : Nat) := Fin k → List (Option (Fin k))

mutual

/-- `avro_consumer_free_cycles`, with an explicit fuel argument standing for
the call stack: if the consumer is already in the freeing set, return; else
insert it, release its schema reference, recurse into its children, free the
child array, and run its `free` callback.  The returned list logs, in order,
the consumers whose release (schema decref and `free` callback) ran.  `none`
means the fuel ran out — the termination theorem shows `k + 1` fuel always
suffices, which is the argument that the C recursion terminates. -/
def freeCyclesF (G : ConsumerGraph k) :
    Nat → Fin k → Finset (Fin k) → Option (Finset (Fin k) × List (Fin k))
  | 0, _, _ => none
  | fuel + 1, n, freeing =>
    if n ∈ freeing then some (freeing, [])
    else
      match freeChildrenF G fuel (G n) (insert n freeing) with
      | none => none
      | some (f2, log) => some (f2, log ++ [n])

/-- The child loop of `avro_consumer_free_cycles`: recurse into each non-null
child consumer in order. -/
def freeChildrenF (G : ConsumerGraph k) :
    Nat → List (Option (Fin k)) → Finset (Fin k) →
    Option (Finset (Fin k) × List (Fin k))
  | _, [], freeing => some (freeing, [])
  | fuel, none :: rest, freeing => freeChildrenF G fuel rest freeing
  | fuel, some c :: rest, freeing =>
    match freeCyclesF G fuel c freeing with
    | none => none
    | some (f1, l1) =>
      match freeChildrenF G fuel rest f1 with
      | none => none
      | some (f2, l2) => some (f2, l1 ++ l2)

end

/-- `avro_consumer_free`: initialize an empty visited table, traverse, free
the table.  Fuel `k + 1` exceeds the number of consumers, which the
termination theorem shows is always enough. -/
def consumerFree (G : ConsumerGraph k) (root : Fin k) :
    Option (Finset (Fin k) × List (Fin k)) :=
  freeCyclesF G (k + 1) root ∅

/-- Reachability in a consumer graph along non-null child edges. -/
inductive Reaches (G : ConsumerGraph k) (root : Fin k) : Fin k → Prop where
  | refl : Reaches G root root
  | step {m c : Fin k} : Reaches G root m → some c ∈ G m → Reaches G root c

/-! ### Raw strings (`string.c`)

An `avro_raw_string_t` (`avro/data.h`): logical size, allocated capacity, a
buffer pointer (`none` = NULL) with its byte contents, the `free` function
pointer (as a `Bool`), and the `our_buf` ownership flag.  Allocations
(`avro_malloc` / `avro_realloc` inside `avro_raw_string_ensure_buf`) bump a
counter in an `AllocState` so reuse claims can count them. -/

structure RawString where
  size : Nat
  allocatedSize : Nat
  buf : Option Nat
  data : List Nat
  hasFree : Bool
  ourBuf : Bool
deriving Repr, DecidableEq

structure AllocState where
  nextBuf : Nat
  allocCount : Nat
deriving Repr, DecidableEq

/-- `avro_raw_string_init`: zero the structure. -/
def rawStringInit : RawString := ⟨0, 0, none, [], false, false⟩

/-- `avro_raw_string_free_buf`: run the release function if there is one,
then null the buffer and zero the capacity. -/
def rawStringFreeBuf (s : RawString) : RawString :=
  { s with hasFree := false, buf := none, data := [], allocatedSize := 0 }

/-- `avro_raw_string_clear`: release the buffer unless `our_buf` is set, then
zero the logical size. -/
def rawStringClear (s : RawString) : RawString :=
  let s1 := if !s.ourBuf then rawStringFreeBuf s else s
  { s1 with size := 0 }

/-- `avro_raw_string_ensure_buf`: drop a buffer we do not control, then
allocate fresh storage when there is none, or double the capacity when the
requested length exceeds it (`avro_realloc` keeps the contents and counts as
an allocation). -/
def rawStringEnsureBuf (s : RawString) (length : Nat) (a : AllocState) :
    RawString × AllocState :=
  let s1 := if !s.ourBuf then rawStringFreeBuf s else s
  if s1.allocatedSize = 0 then
    ({ s1 with buf := some a.nextBuf, data := List.replicate length 0,
               allocatedSize := length, hasFree := true },
     ⟨a.nextBuf + 1, a.allocCount + 1⟩)
  else if s1.allocatedSize < length then
    let newSize := s1.allocatedSize * 2
    ({ s1 with data := s1.data ++ List.replicate (newSize - s1.allocatedSize) 0,
               allocatedSize := newSize },
     ⟨a.nextBuf, a.allocCount + 1⟩)
  else (s1, a)

/-- `avro_raw_string_set_length`: copy `src` (its length is the byte count
the C caller passes) into our own buffer, append a NUL beyond the counted
length, and set the size to exactly `src.length`. -/
def rawStringSetLength (s : RawString) (src : List Nat) (a : AllocState) :
    RawString × AllocState :=
  let (s1, a1) := rawStringEnsureBuf s (src.length + 1) a
  ({ s1 with data := src ++ [0] ++ s1.data.drop (src.length + 1),
             size := src.length }, a1)

/-- `avro_raw_string_set`: `src` models a NUL-terminated C string as the
bytes before the terminator, so `strlen(src) = src.length`; the copy includes
the terminator and the size becomes `strlen + 1`. -/
def rawStringSet (s : RawString) (src : List Nat) (a : AllocState) :
    RawString × AllocState :=
  let length := src.length
  let (s1, a1) := rawStringEnsureBuf s (length + 1) a
  ({ s1 with data := src ++ [0] ++ s1.data.drop (length + 1),
             size := length + 1 }, a1)

/-- `avro_raw_string_give_length`: release any current buffer and adopt the
caller's, clearing `our_buf`. -/
def rawStringGiveLength (s : RawString) (srcBuf : Nat) (srcData : List Nat)
    (length : Nat) (hasFree : Bool) : RawString :=
  let s1 := rawStringFreeBuf s
  { s1 with buf := some srcBuf, data := srcData, allocatedSize := length,
            size := length, hasFree := hasFree, ourBuf := false }

/-- `avro_raw_string_equals` on two distinct non-null handles: sizes first,
then `memcmp` of the first `size` bytes. -/
def rawStringEquals (s1 s2 : RawString) : Bool :=
  s1.size == s2.size && s1.data.take s1.size == s2.data.take s2.size

/-! ### String heap, `st` string table, and raw maps (`map.c`)

Key arguments to the map are C pointers; a heap from addresses to current
byte contents captures that a caller can mutate the buffer a stored key
pointer refers to.  Modelled from the spec: the hash table behind
`indices_by_key` (`st_init_strtable`, from `st.c`, which is not under
`src/`) is "a hash map from key to array index" (spec §4.1) comparing keys
by string content and storing the key pointer it is given. -/

abbrev StrHeap := List (Nat × List Nat)

/-- Read the current bytes at address `p`. -/
def strRead (h : StrHeap) (p : Nat) : Option (List Nat) :=
  (h.find? (fun e => e.1 == p)).map (·.2)

/-- A string-keyed `st` table: stored key pointers with their values, in
insertion order. -/
abbrev StrTable := List (Nat × Nat)

/-- `st_lookup` on a string table: find the entry whose stored key pointer
currently reads as the same string as `key`. -/
def stLookupStr (h : StrHeap) (t : StrTable) (key : Nat) : Option Nat :=
  (t.find? (fun e => strRead h e.1 == strRead h key)).map (·.2)

/-- An `avro_raw_map_t` (`avro/data.h`): the packed element array is its
element size, count, capacity and data pointer (element `i` lives at
`dataBase + elementSize * i`), plus the key table. -/
structure RawMap where
  elementSize : Nat
  elementCount : Nat
  allocatedCount : Nat
  dataBase : Nat
  indicesByKey : StrTable
deriving Repr, DecidableEq

/-- `avro_raw_map_init`. -/
def rawMapInit (elementSize : Nat) : RawMap :=
  ⟨elementSize, 0, 0, 0, []⟩

/-- Modelled from the spec: `avro_raw_array_append` (the packed-array code is
declared in `avro/data.h` but not under `src/`); spec §4.1: append returns a
pointer to a zero-initialized element, growing by doubling from capacity 1,
which may move the storage. -/
def rawArrayAppend (m : RawMap) (a : AllocState) : Nat × RawMap × AllocState :=
  if m.elementCount = m.allocatedCount then
    let newCap := if m.allocatedCount = 0 then 1 else m.allocatedCount * 2
    let base := a.nextBuf
    (base + m.elementSize * m.elementCount,
     { m with dataBase := base, allocatedCount := newCap,
              elementCount := m.elementCount + 1 },
     ⟨a.nextBuf + 1, a.allocCount + 1⟩)
  else
    (m.dataBase + m.elementSize * m.elementCount,
     { m with elementCount := m.elementCount + 1 }, a)

/-- `avro_raw_map_get`: look the key up in `indices_by_key`; on a hit return
the element pointer `data + element_size * i` and the index. -/
def rawMapGet (h : StrHeap) (m : RawMap) (key : Nat) : Option (Nat × Nat) :=
  match stLookupStr h m.indicesByKey key with
  | some i => some (m.dataBase + m.elementSize * i, i)
  | none => none

/-- `avro_raw_map_get_or_create`: on a hit return `(is_new = false, element,
index)`; on a miss append a fresh element, insert the caller's key pointer
into the table (no copy is taken), and return `(is_new = true, element,
index)`. -/
def rawMapGetOrCreate (h : StrHeap) (m : RawMap) (key : Nat) (a : AllocState) :
    (Bool × Nat × Nat) × RawMap × AllocState :=
  match stLookupStr h m.indicesByKey key with
  | some i => ((false, m.dataBase + m.elementSize * i, i), m, a)
  | none =>
    let i := m.elementCount
    let (el, m1, a1) := rawArrayAppend m a
    let m2 := { m1 with indicesByKey := m1.indicesByKey ++ [(key, i)] }
    ((true, el, i), m2, a1)

/-! ### Specific-type generator (`schema_specific.c`)

`avro_schema_write_def` walks a schema, emitting forward declarations,
recursing into children, and emitting the definition.  The formatted text of
each `write(...)` call is abstracted into an emission token carrying the
call's arguments; the `started_schemas` string table (an `st` strtable,
modelled from the spec as a content-keyed set of derived names) and the
bounded `schema_stack` are explicit. -/

def MAX_RECURSION_DEPTH : Nat := 64

/-- Modelled from the spec: `avro_schema_type_name` lives in `schema.c`,
which is not under `src/`.  Spec §4.7: named types use their schema name,
other kinds their kind keyword; a link reports its target's name. -/
def typeName : Schema → String
  | .nullS => "null"
  | .booleanS => "boolean"
  | .intS => "int"
  | .longS => "long"
  | .floatS => "float"
  | .doubleS => "double"
  | .bytesS => "bytes"
  | .stringS => "string"
  | .fixedS n _ => n
  | .enumS n _ => n
  | .recordS n _ => n
  | .arrayS _ => "array"
  | .mapS _ => "map"
  | .unionS _ => "union"
  | .linkS t => typeName t

/-- `get_union_name`: the branch type names joined with underscores. -/
def getUnionName : SchemaList → String
  | .nil => ""
  | .cons b tl => typeName b ++ getUnionNameRest tl
where
  getUnionNameRest : SchemaList → String
  | .nil => ""
  | .cons b tl => "_" ++ typeName b ++ getUnionNameRest tl

/-- `get_schema_name`: the derived name keying the started set —
`array_<item>`, `map_<value>`, the union branch join, or the type name. -/
def getSchemaName : Schema → String
  | .arrayS items => "array_" ++ getSchemaName items
  | .mapS values => "map_" ++ getSchemaName values
  | .unionS bs => getUnionName bs
  | s => typeName s

/-- `avro_schema_type_ref`: the reference text emitted for a schema at a use
site; a record already on the schema stack is referenced as `recursive`. -/
def typeRef (stack : List Schema) : Schema → String
  | .arrayS items => "array, " ++ getSchemaName items
  | .enumS n _ => "enum, " ++ n
  | .fixedS n _ => "fixed, " ++ n
  | .mapS values => "map, " ++ getSchemaName values
  | .recordS n fs =>
    (if Schema.recordS n fs ∈ stack then "recursive, " else "record, ") ++ n
  | .unionS bs => "union, " ++ getUnionName bs
  | .linkS t => typeRef stack t
  | s => typeName s ++ ", _"

/-- One emission token per `write(...)` call site of `avro_schema_write_def`
(the `AVRO_*` macro invocations written to the definitions file). -/
inductive Tok where
  | forwardTok (kind name : String) : Tok
  | arrayTok (itemsName ref : String) : Tok
  | enumStartTok (name : String) : Tok
  | enumSymbolTok (name sym : String) (i : Nat) : Tok
  | enumEndTok (name : String) : Tok
  | fixedTok (name : String) (size : Nat) : Tok
  | mapTok (valuesName ref : String) : Tok
  | recordStartTok (name : String) : Tok
  | recordFieldTok (rname fname : String) (i : Nat) (ref : String) : Tok
  | recordEndTok (name : String) : Tok
  | unionStartTok (name : String) : Tok
  | unionBranchTok (uname : String) (i : Nat) (ref : String) : Tok
  | unionEndTok (name : String) : Tok
deriving Repr, DecidableEq

/-- The forward-declaration block emitted before recursing (primitives emit
nothing). -/
def forwardToks : Schema → List Tok
  | .arrayS items => [.forwardTok "array" (getSchemaName items)]
  | .enumS n _ => [.forwardTok "enum" n]
  | .fixedS n _ => [.forwardTok "fixed" n]
  | .mapS values => [.forwardTok "map" (getSchemaName values)]
  | .recordS n _ => [.forwardTok "record" n]
  | .unionS bs => [.forwardTok "union" (getUnionName bs)]
  | _ => []

/-- The `AVRO_ENUM_SYMBOL` lines. -/
def enumSymbolToks (ename : String) (i : Nat) : List String → List Tok
  | [] => []
  | sym :: rest => .enumSymbolTok ename sym i :: enumSymbolToks ename (i + 1) rest

/-- The `AVRO_RECORD_FIELD` lines (each field emits its type reference). -/
def recordFieldToks (stack : List Schema) (rname : String) (i : Nat) :
    FieldList → List Tok
  | .fnil => []
  | .fcons fname fschema rest =>
    .recordFieldTok rname fname i (typeRef stack fschema) ::
      recordFieldToks stack rname (i + 1) rest

/-- The `AVRO_UNION_BRANCH` lines. -/
def unionBranchToks (stack : List Schema) (uname : String) (i : Nat) :
    SchemaList → List Tok
  | .nil => []
  | .cons b rest =>
    .unionBranchTok uname i (typeRef stack b) ::
      unionBranchToks stack uname (i + 1) rest

/-- The definition block emitted after the children (primitives emit
nothing); `stack` is the schema stack at emission time, used by the
type references. -/
def defToks (stack : List Schema) : Schema → List Tok
  | .arrayS items =>
    [.arrayTok (getSchemaName items) (typeRef stack items)]
  | .enumS n syms =>
    .enumStartTok n :: enumSymbolToks n 0 syms ++ [.enumEndTok n]
  | .fixedS n size => [.fixedTok n size]
  | .mapS values =>
    [.mapTok (getSchemaName values) (typeRef stack values)]
  | .recordS n fs =>
    .recordStartTok n :: recordFieldToks stack n 0 fs ++ [.recordEndTok n]
  | .unionS bs =>
    .unionStartTok (getUnionName bs) ::
      unionBranchToks stack (getUnionName bs) 0 bs ++
      [.unionEndTok (getUnionName bs)]
  | _ => []

/-- The generator context: the `started_schemas` set of derived names, the
in-progress `schema_stack` (its length is `stack_size`), and the emitted
output. -/
structure GenCtx where
  started : List String
  stack : List Schema
  out : List Tok
deriving Repr, DecidableEq

mutual

/-- `avro_schema_write_def`: dereference links; return at once when the
derived name is already started; fail with `EINVAL` when the stack has
reached `MAX_RECURSION_DEPTH`; otherwise push, mark started, emit the
forward declaration, recurse into the children, emit the definition, and
pop. -/
def writeDef (ctx : GenCtx) (schema : Schema) : Except Nat GenCtx :=
  match schema with
  | .linkS target => writeDef ctx target
  | s =>
    let name := getSchemaName s
    if name ∈ ctx.started then .ok ctx
    else if ctx.stack.length = MAX_RECURSION_DEPTH then .error EINVAL
    else
      let ctx1 : GenCtx :=
        { started := name :: ctx.started,
          stack := ctx.stack ++ [s],
          out := ctx.out ++ forwardToks s }
      match writeDefChildren ctx1 s with
      | .error e => .error e
      | .ok ctx2 =>
        let ctx3 : GenCtx := { ctx2 with out := ctx2.out ++ defToks ctx2.stack s }
        .ok { ctx3 with stack := ctx3.stack.dropLast }
termination_by (sizeOf schema, 1)

/-- The child recursion of `avro_schema_write_def`. -/
def writeDefChildren (ctx : GenCtx) (schema : Schema) : Except Nat GenCtx :=
  match schema with
  | .arrayS items => writeDef ctx items
  | .mapS values => writeDef ctx values
  | .recordS _ fs => writeDefFields ctx fs
  | .unionS bs => writeDefBranches ctx bs
  | _ => .ok ctx
termination_by (sizeOf schema, 0)

/-- Field loop of the child recursion. -/
def writeDefFields (ctx : GenCtx) (fs : FieldList) : Except Nat GenCtx :=
  match fs with
  | .fnil => .ok ctx
  | .fcons _ fschema rest =>
    match writeDef ctx fschema with
    | .error e => .error e
    | .ok ctx1 => writeDefFields ctx1 rest
termination_by (sizeOf fs, 2)

/-- Branch loop of the child recursion. -/
def writeDefBranches (ctx : GenCtx) (bs : SchemaList) : Except Nat GenCtx :=
  match bs with
  | .nil => .ok ctx
  | .cons b rest =>
    match writeDef ctx b with
    | .error e => .error e
    | .ok ctx1 => writeDefBranches ctx1 rest
termination_by (sizeOf bs, 2)

end

/-! ## Theorems -/

/-- C10 (confirmed).  `avro_raw_string_set` stores size `strlen(s) + 1`,
counting the NUL terminator, while `avro_raw_string_set_length` stores
exactly the counted length `n` (here `n = strlen(s) = s.length`), appending a
NUL beyond it; `avro_raw_string_equals` therefore reports the two buffers
unequal although both hold the same characters. -/
theorem c10_set_vs_set_length (str1 str2 : RawString) (a1 a2 : AllocState)
    (s : List Nat) :
    (rawStringSet str1 s a1).1.size = s.length + 1 ∧
    (rawStringSetLength str2 s a2).1.size = s.length ∧
    rawStringEquals (rawStringSet str1 s a1).1 (rawStringSetLength str2 s a2).1
      = false ∧
    (rawStringSet str1 s a1).1.data.take s.length = s ∧
    (rawStringSetLength str2 s a2).1.data.take s.length = s := by
  refine ⟨rfl, rfl, ?_, ?_, ?_⟩
  · simp [rawStringEquals, rawStringSet, rawStringSetLength]
  · simp [rawStringSet, List.take_append]
  · simp [rawStringSetLength, List.take_append]

/-- C6 (code_bug).  `avro_raw_string_ensure_buf` allocates storage for
`avro_raw_string_set` but never sets `our_buf`, so `avro_raw_string_clear` —
despite its own comment saying a buffer we control is kept for reuse — frees
the owned buffer, and a subsequent `set` of the same length must allocate
again: after `init; set("a"); clear`, the capacity is gone, the buffer is
null, and the next `set("a")` performs a new allocation. -/
theorem c6_clear_frees_owned_buffer :
    (rawStringSet rawStringInit [97] ⟨0, 0⟩).1.ourBuf = false ∧
    (rawStringClear (rawStringSet rawStringInit [97] ⟨0, 0⟩).1).allocatedSize
      = 0 ∧
    (rawStringClear (rawStringSet rawStringInit [97] ⟨0, 0⟩).1).buf = none ∧
    (rawStringSet (rawStringClear (rawStringSet rawStringInit [97] ⟨0, 0⟩).1)
        [97] (rawStringSet rawStringInit [97] ⟨0, 0⟩).2).2.allocCount
      = (rawStringSet rawStringInit [97] ⟨0, 0⟩).2.allocCount + 1 := by
  decide

/-- `avro_raw_array_append` leaves the key table and the element size alone,
and its returned element pointer is `data + element_size * old_count` for the
(possibly moved) data pointer. -/
theorem rawArrayAppend_spec (m : RawMap) (a : AllocState) :
    (rawArrayAppend m a).2.1.indicesByKey = m.indicesByKey ∧
    (rawArrayAppend m a).2.1.elementSize = m.elementSize ∧
    (rawArrayAppend m a).1 =
      (rawArrayAppend m a).2.1.dataBase + m.elementSize * m.elementCount := by
  unfold rawArrayAppend
  split <;> simp

/-- A miss in `avro_raw_map_get_or_create` appends the element, stores the
key at the new index, and reports `is_new`; this is the shape of the
first-call result used by the idempotence proofs. -/
theorem rawMapGetOrCreate_miss (h : StrHeap) (m : RawMap) (key : Nat)
    (a : AllocState) (hl : stLookupStr h m.indicesByKey key = none) :
    rawMapGetOrCreate h m key a =
      ((true, (rawArrayAppend m a).1, m.elementCount),
       { (rawArrayAppend m a).2.1 with
         indicesByKey :=
           (rawArrayAppend m a).2.1.indicesByKey ++ [(key, m.elementCount)] },
       (rawArrayAppend m a).2.2) := by
  unfold rawMapGetOrCreate
  rw [hl]

/-- After a miss-and-insert for `key`, looking up any pointer that currently
reads as the same string finds the new entry. -/
theorem stLookupStr_after_insert (h : StrHeap) (t : StrTable) (key q i : Nat)
    (hl : stLookupStr h t key = none) (hq : strRead h q = strRead h key) :
    stLookupStr h (t ++ [(key, i)]) key = some i ∧
    stLookupStr h (t ++ [(key, i)]) q = some i := by
  have hfind : t.find? (fun e => strRead h e.1 == strRead h key) = none := by
    unfold stLookupStr at hl
    exact Option.map_eq_none'.mp hl
  constructor
  · unfold stLookupStr
    simp [List.find?_append, hfind]
  · unfold stLookupStr
    simp only [hq]
    simp [List.find?_append, hfind]

/-- C7 (confirmed).  `avro_raw_map_get_or_create` is idempotent on keys:
when a call created a new element, an immediately repeated call with the same
key and no intervening mutation returns the same element pointer and the same
index, reports `is_new = 0`, and changes nothing. -/
theorem c7_get_or_create_idempotent (h : StrHeap) (m m' : RawMap)
    (key : Nat) (a a' : AllocState) (el i : Nat)
    (hfirst : rawMapGetOrCreate h m key a = ((true, el, i), m', a')) :
    rawMapGetOrCreate h m' key a' = ((false, el, i), m', a') := by
  cases hl : stLookupStr h m.indicesByKey key with
  | some j =>
    unfold rawMapGetOrCreate at hfirst
    rw [hl] at hfirst
    simp at hfirst
  | none =>
    rw [rawMapGetOrCreate_miss h m key a hl] at hfirst
    obtain ⟨happ, hsize, hel⟩ := rawArrayAppend_spec m a
    simp only [Prod.mk.injEq, true_and] at hfirst
    obtain ⟨⟨hel', hi⟩, hM, hA⟩ := hfirst
    rw [← hM, ← hA, ← hel', ← hi]
    have hlook := (stLookupStr_after_insert h m.indicesByKey key key
      m.elementCount hl rfl).1
    unfold rawMapGetOrCreate
    simp only [happ]
    rw [hlook]
    simp [hel, hsize, happ]

/-- Witness for C7 at a concrete map: key pointer 0 reading "a", one
insertion, then the repeated call. -/
theorem c7_get_or_create_idempotent_witness :
    rawMapGetOrCreate [(0, [97])] ⟨8, 1, 1, 5, [(0, 0)]⟩ 0 ⟨6, 1⟩ =
      ((false, 5, 0), ⟨8, 1, 1, 5, [(0, 0)]⟩, ⟨6, 1⟩) :=
  c7_get_or_create_idempotent [(0, [97])] (rawMapInit 8)
    ⟨8, 1, 1, 5, [(0, 0)]⟩ 0 ⟨5, 0⟩ ⟨6, 1⟩ 5 0 (by decide)

/-- C8 (corrected), counterexample.  `avro_raw_map_get_or_create` stores the
caller's key pointer without duplicating it: insert under pointer 0 (then
reading "a"); after the caller's buffer is modified to read "b", a get with
the equal-content key "a" at fresh pointer 1 fails, although the claim says
it must succeed regardless of such modification. -/
theorem c8_key_not_duplicated_counterexample :
    (rawMapGetOrCreate [(0, [97]), (1, [97])] (rawMapInit 8) 0 ⟨5, 0⟩).1.1
      = true ∧
    rawMapGet [(0, [98]), (1, [97])]
      (rawMapGetOrCreate [(0, [97]), (1, [97])] (rawMapInit 8) 0 ⟨5, 0⟩).2.1 1
      = none := by
  decide

/-- C8 (corrected, amended).  The map takes over the caller's key pointer
itself (no copy): after a miss-and-insert for `key`, a later
`avro_raw_map_get` with any equal-content key succeeds — as long as the
bytes the stored pointer refers to are unchanged. -/
theorem c8_key_lookup_amended (h : StrHeap) (m m' : RawMap) (key q : Nat)
    (a a' : AllocState) (el i : Nat)
    (hfirst : rawMapGetOrCreate h m key a = ((true, el, i), m', a'))
    (hq : strRead h q = strRead h key) :
    rawMapGet h m' q = some (el, i) := by
  cases hl : stLookupStr h m.indicesByKey key with
  | some j =>
    unfold rawMapGetOrCreate at hfirst
    rw [hl] at hfirst
    simp at hfirst
  | none =>
    rw [rawMapGetOrCreate_miss h m key a hl] at hfirst
    obtain ⟨happ, hsize, hel⟩ := rawArrayAppend_spec m a
    simp only [Prod.mk.injEq, true_and] at hfirst
    obtain ⟨⟨hel', hi⟩, hM, hA⟩ := hfirst
    rw [← hM, ← hel', ← hi]
    have hlook := (stLookupStr_after_insert h m.indicesByKey key q
      m.elementCount hl hq).2
    unfold rawMapGet
    simp only [happ]
    rw [hlook]
    simp [hel, hsize]

/-- Witness for the amended C8: get with equal-content pointer 1 after
inserting pointer 0, heap unchanged. -/
theorem c8_key_lookup_amended_witness :
    rawMapGet [(0, [97]), (1, [97])] ⟨8, 1, 1, 5, [(0, 0)]⟩ 1 = some (5, 0) :=
  c8_key_lookup_amended [(0, [97]), (1, [97])] (rawMapInit 8)
    ⟨8, 1, 1, 5, [(0, 0)]⟩ 0 1 ⟨5, 0⟩ ⟨6, 1⟩ 5 0 (by decide) (by decide)

/-! Memoize-cache lemmas. -/

/-- After `avro_memoize_delete`, no binding for the deleted keys remains. -/
theorem memoGet_delete_self {κ} [DecidableEq κ] (m : Memo κ) (k : κ)
    (w : Schema) : memoGet (memoDelete m k w) k w = none := by
  induction m with
  | nil => rfl
  | cons e rest ih =>
    obtain ⟨key, v⟩ := e
    by_cases he : key = (k, w)
    · simpa [memoDelete, List.filter_cons, he] using ih
    · simpa [memoDelete, List.filter_cons, he, memoGet] using ih

/-- `avro_memoize_delete` leaves bindings for other keys alone. -/
theorem memoGet_delete_ne {κ} [DecidableEq κ] (m : Memo κ) {k k₀ : κ}
    {w w₀ : Schema} (hne : (k₀, w₀) ≠ (k, w)) :
    memoGet (memoDelete m k w) k₀ w₀ = memoGet m k₀ w₀ := by
  induction m with
  | nil => rfl
  | cons e rest ih =>
    obtain ⟨key, v⟩ := e
    have hcond : ¬((k, w) = (k₀, w₀)) := fun h => hne h.symm
    rw [memoDelete, List.filter_cons]
    by_cases he : key = (k, w)
    · rw [if_neg (by simp [he])]
      rw [show memoGet ((key, v) :: rest) k₀ w₀ = memoGet rest k₀ w₀ by
        simp only [memoGet, he]
        rw [if_neg hcond]]
      exact ih
    · rw [if_pos (by simp [he])]
      simp only [memoGet]
      by_cases h₀ : key = (k₀, w₀)
      · simp [h₀]
      · simpa [h₀, memoDelete] using ih

/-- `avro_memoize_set` then `avro_memoize_get` with the same keys returns the
stored value. -/
theorem memoGet_set_self {κ} [DecidableEq κ] (m : Memo κ) (k : κ) (w : Schema)
    (v : Nat) : memoGet (memoSet m k w v) k w = some v := by
  simp [memoSet, memoGet]

/-- `avro_memoize_set` leaves bindings for other keys alone. -/
theorem memoGet_set_ne {κ} [DecidableEq κ] (m : Memo κ) {k k₀ : κ}
    {w w₀ : Schema} (v : Nat) (hne : (k₀, w₀) ≠ (k, w)) :
    memoGet (memoSet m k w v) k₀ w₀ = memoGet m k₀ w₀ := by
  have hcond : ¬((k, w) = (k₀, w₀)) := fun h => hne h.symm
  rw [memoSet, show memoGet (((k, w), v) :: memoDelete m k w) k₀ w₀ =
    memoGet (memoDelete m k w) k₀ w₀ by
      simp only [memoGet]
      rw [if_neg hcond]]
  exact memoGet_delete_ne m hne

/-- Deleting the keys just set restores the deleted cache. -/
theorem memoDelete_set {κ} [DecidableEq κ] (m : Memo κ) (k : κ) (w : Schema)
    (v : Nat) : memoDelete (memoSet m k w v) k w = memoDelete m k w := by
  simp [memoSet, memoDelete, List.filter_cons, List.filter_filter]

/-- Reading back the node just written at a live address. -/
theorem nodeGet_set_self {κ} (st : BuildState κ) (id : Nat) (n : RNode) :
    nodeGet (nodeSet st id n) id = some n := by
  simp [nodeGet, nodeSet, List.find?_cons]

/-! Writer-union resolution: the branch loop under an all-incompatible
`try_branch`, and the two claim theorems about
`avro_specific_resolve_writer_union`. -/

/-- If `try_branch` rejects every branch without touching the cache or the
heap, the branch loop returns all-null children and preserves both. -/
theorem tryBranchesG_none {κ} [DecidableEq κ]
    (tb : BuildState κ → Schema → Option Nat × BuildState κ) :
    ∀ (bs : SchemaList),
      (∀ st' b, bs.mem b → (tb st' b).1 = none) →
      (∀ st' b, bs.mem b →
        (tb st' b).2.cache = st'.cache ∧ (tb st' b).2.nodes = st'.nodes) →
      ∀ st : BuildState κ,
        (tryBranchesG tb st bs).1.all Option.isNone = true ∧
        (tryBranchesG tb st bs).2.cache = st.cache ∧
        (tryBranchesG tb st bs).2.nodes = st.nodes
  | .nil, _, _, st => by simp [tryBranchesG]
  | .cons b rest, hnone, hpres, st => by
    have hb : (tb st b).1 = none := hnone st b (Or.inl rfl)
    have hbp := hpres st b (Or.inl rfl)
    have hrest := tryBranchesG_none tb rest
      (fun st' b' hm => hnone st' b' (Or.inr hm))
      (fun st' b' hm => hpres st' b' (Or.inr hm)) (tb st b).2
    simp only [tryBranchesG]
    rcases hr : tb st b with ⟨r, st1⟩
    rcases hrr : tryBranchesG tb st1 rest with ⟨rs, st2⟩
    rw [hr] at hb hbp hrest
    rw [hrr] at hrest
    simp only at hb hbp hrest
    simp [hb, hrest.1, hrest.2.1, hrest.2.2, hbp.1, hbp.2]

/-- C2 (confirmed).  For a writer union where the branch loop resolved at
least one branch, `avro_specific_resolve_writer_union` returns the (non-null)
union consumer, whose `child_consumers` are exactly the per-branch results
and whose `union_branch` callback, for every in-range discriminant, returns
the branch's child consumer with the unchanged `user_data` when that branch
resolved, and the non-zero `IncompatibleBranch` error (`EINVAL`) exactly when
it did not. -/
theorem c2_writer_union_dispatch {κ α : Type} [DecidableEq κ]
    (tb : BuildState κ → Schema → Option Nat × BuildState κ)
    (key : κ) (st st2 : BuildState κ) (branches : SchemaList)
    (kids : List (Option Nat)) (ud : α)
    (hkids : tryBranchesG tb
      ⟨st.nextId + 1, memoSet st.cache key (.unionS branches) st.nextId,
       (st.nextId, ⟨.unionS branches, .noCb,
                    List.replicate branches.length none, false⟩) :: st.nodes⟩
      branches = (kids, st2))
    (hsome : kids.any Option.isSome = true) :
    (resolveWriterUnionG tb key st (.unionS branches)).1 = some st.nextId ∧
    nodeGet (resolveWriterUnionG tb key st (.unionS branches)).2 st.nextId =
      some ⟨.unionS branches, .unionBranchCb, kids, false⟩ ∧
    ∀ i, i < branches.length →
      (∀ c, kids[i]? = some (some c) →
        writerUnionBranch
          (⟨.unionS branches, .unionBranchCb, kids, false⟩ : RNode) i ud
          = .ok (c, ud)) ∧
      (kids[i]? = some none →
        writerUnionBranch
          (⟨.unionS branches, .unionBranchCb, kids, false⟩ : RNode) i ud
          = .error EINVAL ∧ EINVAL ≠ 0) := by
  simp only [resolveWriterUnionG]
  rw [hkids]
  simp only [hsome, if_true]
  refine ⟨?_, ?_, ?_⟩
  · trivial
  · exact nodeGet_set_self _ _ _
  · intro i _
    constructor
    · intro c hc
      simp [writerUnionBranch, hc]
    · intro hc
      simp [writerUnionBranch, hc, EINVAL]

/-- Witness for C2: writer union `[long]` against the raw `long` target's
try function; branch 0 resolves to consumer 1 and is dispatched. -/
theorem c2_writer_union_dispatch_witness :
    (resolveWriterUnionG (rawTry .longK) RawKind.longK
      ⟨0, memoInit RawKind, []⟩ (.unionS (.cons .longS .nil))).1 = some 0 ∧
    writerUnionBranch
      (⟨.unionS (.cons .longS .nil), .unionBranchCb, [some 1], false⟩ : RNode)
      0 (7 : Nat) = .ok (1, 7) := by
  obtain ⟨h1, _, h3⟩ := c2_writer_union_dispatch (rawTry .longK)
    RawKind.longK ⟨0, memoInit RawKind, []⟩ _ (.cons .longS .nil)
    [some 1] (7 : Nat) rfl rfl
  exact ⟨h1, (h3 0 (by decide)).1 1 rfl⟩

/-- C3 (confirmed).  For a writer union none of whose branches resolves,
`avro_specific_resolve_writer_union` returns null, releases the union
consumer it allocated so the heap of live nodes is exactly what it was, and
deletes the `(target_key, W)` cache entry it had placed, leaving the cache
with no binding for that pair. -/
theorem c3_writer_union_all_incompatible {κ : Type} [DecidableEq κ]
    (tb : BuildState κ → Schema → Option Nat × BuildState κ)
    (key : κ) (st : BuildState κ) (branches : SchemaList)
    (hfresh : ∀ p ∈ st.nodes, p.1 ≠ st.nextId)
    (hnone : ∀ st' b, branches.mem b → (tb st' b).1 = none)
    (hpres : ∀ st' b, branches.mem b →
      (tb st' b).2.cache = st'.cache ∧ (tb st' b).2.nodes = st'.nodes) :
    (resolveWriterUnionG tb key st (.unionS branches)).1 = none ∧
    (resolveWriterUnionG tb key st (.unionS branches)).2.nodes = st.nodes ∧
    memoGet (resolveWriterUnionG tb key st (.unionS branches)).2.cache key
      (.unionS branches) = none ∧
    (resolveWriterUnionG tb key st (.unionS branches)).2.cache =
      memoDelete st.cache key (.unionS branches) := by
  obtain ⟨hall, hcache, hnodes⟩ := tryBranchesG_none tb branches hnone hpres
    ⟨st.nextId + 1, memoSet st.cache key (.unionS branches) st.nextId,
     (st.nextId, ⟨.unionS branches, .noCb,
                  List.replicate branches.length none, false⟩) :: st.nodes⟩
  simp only [resolveWriterUnionG]
  rcases hkids : tryBranchesG tb
    ⟨st.nextId + 1, memoSet st.cache key (.unionS branches) st.nextId,
     (st.nextId, ⟨.unionS branches, .noCb,
                  List.replicate branches.length none, false⟩) :: st.nodes⟩
    branches with ⟨kids, st2⟩
  rw [hkids] at hall hcache hnodes
  simp only at hall hcache hnodes
  have hany : kids.any Option.isSome = false := by
    rw [List.any_eq_false]
    intro x hx
    have := (List.all_eq_true.mp hall) x hx
    simp [Option.isNone_iff_eq_none.mp this]
  rw [hany]
  simp only [Bool.false_eq_true, if_false]
  have hrest : st.nodes.filter (fun p => decide (p.1 ≠ st.nextId)) = st.nodes :=
    List.filter_eq_self.mpr (fun p hp => by simpa using hfresh p hp)
  refine ⟨?_, ?_, ?_, ?_⟩
  · trivial
  · simp [nodeFree, hnodes, List.filter_cons, hrest]
    exact fun a b hab => hfresh (a, b) hab
  · simp only [nodeFree, hcache]
    exact memoGet_delete_self _ _ _
  · simp only [nodeFree, hcache]
    exact memoDelete_set _ _ _ _

/-- Witness for C3: writer union `[null]` with a try function rejecting
everything; the resolution fails, the heap is restored, and the cache holds
no entry for the union. -/
theorem c3_writer_union_all_incompatible_witness :
    (resolveWriterUnionG (fun (st : BuildState Nat) _ => (none, st)) 0
      ⟨0, memoInit Nat, []⟩ (.unionS (.cons .nullS .nil))).1 = none ∧
    (resolveWriterUnionG (fun (st : BuildState Nat) _ => (none, st)) 0
      ⟨0, memoInit Nat, []⟩ (.unionS (.cons .nullS .nil))).2.nodes = [] ∧
    memoGet (resolveWriterUnionG (fun (st : BuildState Nat) _ => (none, st)) 0
      ⟨0, memoInit Nat, []⟩ (.unionS (.cons .nullS .nil))).2.cache 0
      (.unionS (.cons .nullS .nil)) = none := by
  obtain ⟨h1, h2, h3, _⟩ := c3_writer_union_all_incompatible
    (fun (st : BuildState Nat) _ => (none, st)) 0 ⟨0, memoInit Nat, []⟩
    (.cons .nullS .nil) (by simp) (fun _ _ _ => rfl)
    (fun _ _ _ => ⟨rfl, rfl⟩)
  exact ⟨h1, h2, h3⟩

/-! The raw `long` resolver (C1). -/

/-- C1 (corrected), counterexample.  For the writer schema of kind int32,
`avro_raw_long_resolver_new` returns null: `avro_raw_long_try` accepts only
`is_avro_int64` writers and an int32 writer is not a union either, so the
claimed non-null consumer (and the int32 → int64 promotion) does not
exist. -/
theorem c1_int32_promotion_counterexample :
    (rawResolverNew RawKind.longK Schema.intS).1 = none := by
  simp [rawResolverNew, rawResolverMemoized, resolveWriterUnionMem, rawTry,
    RawKind.accepts, memoGet, memoInit]

/-- C1 (corrected, amended).  The raw int64 resolver accepts only a writer
schema of kind int64: construction then succeeds with a consumer whose
`long_value` callback stores the incoming int64 value (-1 included) into the
destination slot and returns 0, while for a writer schema of kind int32 the
construction fails and returns null — int32 → int64 promotion is not
implemented. -/
theorem c1_long_resolver_amended (v d : Int) :
    rawResolverNew RawKind.longK Schema.longS =
      (some 0, [(0, ⟨Schema.longS, RCallback.longCb, [], false⟩)]) ∧
    (rawResolverNew RawKind.longK Schema.intS).1 = none ∧
    rawLongValue v d = (0, v) := by
  refine ⟨?_, ?_, rfl⟩
  · simp [rawResolverNew, rawResolverMemoized, rawTry, RawKind.accepts,
      RawKind.valueCb, memoGet, memoInit, memoSet, memoDelete]
  · simp [rawResolverNew, rawResolverMemoized, resolveWriterUnionMem, rawTry,
      RawKind.accepts, memoGet, memoInit]

/-! Memoized construction (C4): every cache key the resolver touches for a
writer schema `w` is of the form `(k, w')` with `sizeOf w' ≤ sizeOf w`, so
bindings for larger schemas survive; and a successful construction always
leaves its own binding in place. -/

/-- Unequal sizes give unequal cache keys. -/
theorem key_ne_of_sizeOf_lt {κ : Type} (k : κ) {w w₀ : Schema}
    (h : sizeOf w < sizeOf w₀) : ((k, w₀) : κ × Schema) ≠ (k, w) := by
  intro hh
  have hw : w₀ = w := congrArg Prod.snd hh
  subst hw
  exact absurd h (lt_irrefl _)

mutual

/-- `avro_raw_<T>_resolver_memoized` leaves cache bindings for
strictly larger writer schemas untouched. -/
theorem memoPres_raw (k : RawKind) (st : BuildState RawKind) (w w₀ : Schema)
    (hlt : sizeOf w < sizeOf w₀) :
    memoGet (rawResolverMemoized k st w).2.cache k w₀ =
      memoGet st.cache k w₀ := by
  rw [rawResolverMemoized]
  split
  · rfl
  · split
    · rename_i id st' heq
      show memoGet st'.cache k w₀ = memoGet st.cache k w₀
      unfold rawTry at heq
      by_cases ha : k.accepts w = true
      · rw [if_pos ha] at heq
        have hst : st' =
            ⟨st.nextId + 1, memoSet st.cache k w st.nextId,
             (st.nextId, ⟨w, k.valueCb, [], false⟩) :: st.nodes⟩ :=
          (congrArg Prod.snd heq).symm
        rw [hst]
        exact memoGet_set_ne _ _ (key_ne_of_sizeOf_lt k hlt)
      · rw [if_neg ha] at heq
        exact absurd (congrArg Prod.fst heq) (by simp)
    · exact memoPres_union k st w w₀ hlt
termination_by (sizeOf w, 1)

/-- `avro_specific_resolve_writer_union` (memoized instantiation) leaves
cache bindings for strictly larger writer schemas untouched. -/
theorem memoPres_union (k : RawKind) (st : BuildState RawKind) (w w₀ : Schema)
    (hlt : sizeOf w < sizeOf w₀) :
    memoGet (resolveWriterUnionMem k st w).2.cache k w₀ =
      memoGet st.cache k w₀ := by
  cases w with
  | unionS bs =>
    have hbs : sizeOf bs < sizeOf w₀ := by
      have h1 : sizeOf bs < sizeOf (Schema.unionS bs) := by
        simp_arith [Schema.unionS.sizeOf_spec]
      omega
    simp only [resolveWriterUnionMem]
    rcases hkids : tryBranchesMem k
      ⟨st.nextId + 1, memoSet st.cache k (.unionS bs) st.nextId,
       (st.nextId, ⟨.unionS bs, .noCb, List.replicate bs.length none,
                    false⟩) :: st.nodes⟩ bs with ⟨kids, st2⟩
    have hpres := memoPres_branches k
      ⟨st.nextId + 1, memoSet st.cache k (.unionS bs) st.nextId,
       (st.nextId, ⟨.unionS bs, .noCb, List.replicate bs.length none,
                    false⟩) :: st.nodes⟩ bs w₀ hbs
    rw [hkids] at hpres
    have hset : memoGet (memoSet st.cache k (.unionS bs) st.nextId) k w₀ =
        memoGet st.cache k w₀ :=
      memoGet_set_ne _ _ (key_ne_of_sizeOf_lt k hlt)
    have hpres' : memoGet st2.cache k w₀ = memoGet st.cache k w₀ := by
      rw [← hset]
      exact hpres
    by_cases hany : kids.any Option.isSome = true
    · rw [if_pos hany]
      show memoGet (nodeSet st2 st.nextId
        ⟨.unionS bs, .unionBranchCb, kids, false⟩).cache k w₀ =
        memoGet st.cache k w₀
      rw [show (nodeSet st2 st.nextId
        ⟨.unionS bs, .unionBranchCb, kids, false⟩).cache = st2.cache from rfl]
      exact hpres'
    · rw [if_neg hany]
      show memoGet (memoDelete (nodeFree st2 st.nextId).cache k
        (.unionS bs)) k w₀ = memoGet st.cache k w₀
      rw [show (nodeFree st2 st.nextId).cache = st2.cache from rfl]
      rw [memoGet_delete_ne _ (key_ne_of_sizeOf_lt k hlt)]
      exact hpres'
  | nullS => simp [resolveWriterUnionMem]
  | booleanS => simp [resolveWriterUnionMem]
  | intS => simp [resolveWriterUnionMem]
  | longS => simp [resolveWriterUnionMem]
  | floatS => simp [resolveWriterUnionMem]
  | doubleS => simp [resolveWriterUnionMem]
  | bytesS => simp [resolveWriterUnionMem]
  | stringS => simp [resolveWriterUnionMem]
  | fixedS n s => simp [resolveWriterUnionMem]
  | enumS n syms => simp [resolveWriterUnionMem]
  | arrayS t => simp [resolveWriterUnionMem]
  | mapS t => simp [resolveWriterUnionMem]
  | recordS n fs => simp [resolveWriterUnionMem]
  | linkS t => simp [resolveWriterUnionMem]
termination_by (sizeOf w, 0)

/-- The branch loop leaves cache bindings for schemas strictly larger than
the branch list untouched. -/
theorem memoPres_branches (k : RawKind) (st : BuildState RawKind)
    (bs : SchemaList) (w₀ : Schema) (hlt : sizeOf bs < sizeOf w₀) :
    memoGet (tryBranchesMem k st bs).2.cache k w₀ = memoGet st.cache k w₀ := by
  cases bs with
  | nil => simp [tryBranchesMem]
  | cons b rest =>
    have hszb : sizeOf b < sizeOf w₀ := by
      have h1 : sizeOf b < sizeOf (SchemaList.cons b rest) := by
        simp_arith [SchemaList.cons.sizeOf_spec]
      omega
    have hszr : sizeOf rest < sizeOf w₀ := by
      have h1 : sizeOf rest < sizeOf (SchemaList.cons b rest) := by
        simp_arith [SchemaList.cons.sizeOf_spec]
      omega
    simp only [tryBranchesMem]
    rcases hr : rawResolverMemoized k st b with ⟨r, st1⟩
    show memoGet (tryBranchesMem k st1 rest).2.cache k w₀ =
      memoGet st.cache k w₀
    rw [memoPres_branches k st1 rest w₀ hszr]
    have h1 := memoPres_raw k st b w₀ hszb
    rw [hr] at h1
    exact h1
termination_by (sizeOf bs, 2)

end

/-- A successful `avro_specific_resolve_writer_union` (memoized
instantiation) leaves its result cached under `(k, w)`. -/
theorem cached_union (k : RawKind) (st : BuildState RawKind) (w : Schema)
    (id : Nat) (st' : BuildState RawKind)
    (h : resolveWriterUnionMem k st w = (some id, st')) :
    memoGet st'.cache k w = some id := by
  cases w with
  | unionS bs =>
    have hbs : sizeOf bs < sizeOf (Schema.unionS bs) := by
      simp_arith [Schema.unionS.sizeOf_spec]
    simp only [resolveWriterUnionMem] at h
    rcases hkids : tryBranchesMem k
      ⟨st.nextId + 1, memoSet st.cache k (.unionS bs) st.nextId,
       (st.nextId, ⟨.unionS bs, .noCb, List.replicate bs.length none,
                    false⟩) :: st.nodes⟩ bs with ⟨kids, st2⟩
    rw [hkids] at h
    by_cases hany : kids.any Option.isSome = true
    · rw [if_pos hany] at h
      have hid : some st.nextId = some id := congrArg Prod.fst h
      have hst : nodeSet st2 st.nextId
          ⟨.unionS bs, .unionBranchCb, kids, false⟩ = st' :=
        congrArg Prod.snd h
      rw [← hst]
      show memoGet st2.cache k (.unionS bs) = some id
      have hpres := memoPres_branches k
        ⟨st.nextId + 1, memoSet st.cache k (.unionS bs) st.nextId,
         (st.nextId, ⟨.unionS bs, .noCb, List.replicate bs.length none,
                      false⟩) :: st.nodes⟩ bs (.unionS bs) hbs
      rw [hkids] at hpres
      rw [hpres]
      show memoGet (memoSet st.cache k (.unionS bs) st.nextId) k
        (.unionS bs) = some id
      rw [memoGet_set_self]
      exact hid
    · rw [if_neg hany] at h
      exact absurd (congrArg Prod.fst h) (by simp)
  | nullS => simp [resolveWriterUnionMem] at h
  | booleanS => simp [resolveWriterUnionMem] at h
  | intS => simp [resolveWriterUnionMem] at h
  | longS => simp [resolveWriterUnionMem] at h
  | floatS => simp [resolveWriterUnionMem] at h
  | doubleS => simp [resolveWriterUnionMem] at h
  | bytesS => simp [resolveWriterUnionMem] at h
  | stringS => simp [resolveWriterUnionMem] at h
  | fixedS n s => simp [resolveWriterUnionMem] at h
  | enumS n syms => simp [resolveWriterUnionMem] at h
  | arrayS t => simp [resolveWriterUnionMem] at h
  | mapS t => simp [resolveWriterUnionMem] at h
  | recordS n fs => simp [resolveWriterUnionMem] at h
  | linkS t => simp [resolveWriterUnionMem] at h

/-- A successful `avro_raw_<T>_resolver_memoized` call leaves its result
cached under `(k, w)`. -/
theorem cached_raw (k : RawKind) (st : BuildState RawKind) (w : Schema)
    (id : Nat) (st' : BuildState RawKind)
    (h : rawResolverMemoized k st w = (some id, st')) :
    memoGet st'.cache k w = some id := by
  rw [rawResolverMemoized] at h
  split at h
  · rename_i id' hm
    have hid : some id' = some id := congrArg Prod.fst h
    have hst : st = st' := congrArg Prod.snd h
    rw [← hst, hm, hid]
  · split at h
    · rename_i id' st'' heq
      have hid : some id' = some id := congrArg Prod.fst h
      have hst : st'' = st' := congrArg Prod.snd h
      unfold rawTry at heq
      by_cases ha : k.accepts w = true
      · rw [if_pos ha] at heq
        have h1 : some st.nextId = some id' := congrArg Prod.fst heq
        have h2 :
            (⟨st.nextId + 1, memoSet st.cache k w st.nextId,
              (st.nextId, ⟨w, k.valueCb, [], false⟩) :: st.nodes⟩ :
              BuildState RawKind) = st'' := congrArg Prod.snd heq
        rw [← hst, ← h2]
        show memoGet (memoSet st.cache k w st.nextId) k w = some id
        rw [memoGet_set_self]
        exact h1.trans hid
      · rw [if_neg ha] at heq
        exact absurd (congrArg Prod.fst heq) (by simp)
    · exact cached_union k st w id st' h

/-- C4 (confirmed).  For every primitive target kind and writer schema, a
successful `avro_raw_<T>_resolver_memoized` call stores its consumer in the
cache under the per-kind sentinel key and the writer schema, and a repeated
call with the resulting cache returns the pointer-identical consumer without
touching the state — the cache-hit path that also closes recursion. -/
theorem c4_memoized_resolver_idempotent (k : RawKind) (st : BuildState RawKind)
    (w : Schema) (id : Nat) (st' : BuildState RawKind)
    (h : rawResolverMemoized k st w = (some id, st')) :
    memoGet st'.cache k w = some id ∧
    rawResolverMemoized k st' w = (some id, st') := by
  have hc := cached_raw k st w id st' h
  refine ⟨hc, ?_⟩
  rw [rawResolverMemoized, hc]

/-- Witness for C4 at the writer schema `long` with an empty cache. -/
theorem c4_memoized_resolver_idempotent_witness :
    memoGet ([((RawKind.longK, Schema.longS), 0)] : Memo RawKind)
      RawKind.longK Schema.longS = some 0 ∧
    rawResolverMemoized RawKind.longK
      ⟨1, [((RawKind.longK, Schema.longS), 0)],
       [(0, ⟨Schema.longS, RCallback.longCb, [], false⟩)]⟩ Schema.longS =
      (some 0,
       ⟨1, [((RawKind.longK, Schema.longS), 0)],
        [(0, ⟨Schema.longS, RCallback.longCb, [], false⟩)]⟩) :=
  c4_memoized_resolver_idempotent RawKind.longK ⟨0, memoInit RawKind, []⟩
    Schema.longS 0
    ⟨1, [((RawKind.longK, Schema.longS), 0)],
     [(0, ⟨Schema.longS, RCallback.longCb, [], false⟩)]⟩
    (by simp [rawResolverMemoized, rawTry, RawKind.accepts, RawKind.valueCb,
      memoGet, memoInit, memoSet, memoDelete])

/-- C9 (confirmed).  `avro_schema_write_def` dereferences links; for any
other schema it returns success with the context — output included —
untouched when the schema's derived name is already in the started set (so a
recursive record never re-enters), and it fails with the recursion-limit
error (`EINVAL`) when a not-yet-started schema is met while the schema stack
already holds `MAX_RECURSION_DEPTH = 64` entries. -/
theorem c9_write_def_guards (ctx : GenCtx) (s : Schema)
    (hnl : ∀ t, s ≠ Schema.linkS t) :
    (getSchemaName s ∈ ctx.started → writeDef ctx s = .ok ctx) ∧
    (getSchemaName s ∉ ctx.started → ctx.stack.length = MAX_RECURSION_DEPTH →
      writeDef ctx s = .error EINVAL) ∧
    (∀ t ctx', writeDef ctx' (Schema.linkS t) = writeDef ctx' t) := by
  refine ⟨?_, ?_, ?_⟩
  · intro hin
    cases s <;> try (exact absurd rfl (hnl _))
    all_goals rw [writeDef]
    all_goals try exact fun target h => hnl target h
    all_goals simp [hin]
  · intro hnin hlen
    cases s <;> try (exact absurd rfl (hnl _))
    all_goals rw [writeDef]
    all_goals try exact fun target h => hnl target h
    all_goals simp [hnin, hlen]
  · intro t ctx'
    rw [writeDef]

/-- Witness for C9: an already-started `int` primitive returns success with
nothing emitted; a fresh `double` met with a full stack of 64 in-progress
schemas fails with `EINVAL`. -/
theorem c9_write_def_guards_witness :
    writeDef ⟨["int"], [], []⟩ Schema.intS = .ok ⟨["int"], [], []⟩ ∧
    writeDef ⟨[], List.replicate 64 Schema.nullS, []⟩ Schema.doubleS =
      .error EINVAL := by
  constructor
  · exact (c9_write_def_guards ⟨["int"], [], []⟩ Schema.intS
      (fun t => by simp)).1 (by decide)
  · exact (c9_write_def_guards ⟨[], List.replicate 64 Schema.nullS, []⟩
      Schema.doubleS (fun t => by simp)).2.1 (by decide)
      (by simp [MAX_RECURSION_DEPTH])

/-! `avro_consumer_free` (C5): the visited-set traversal terminates on every
finite consumer graph, cycles included, and releases each reachable consumer
exactly once. -/

/-- Reachability extends through a child edge at the front. -/
theorem Reaches.prepend {k : Nat} {G : ConsumerGraph k} {n c m : Fin k}
    (hc : some c ∈ G n) (h : Reaches G c m) : Reaches G n m := by
  induction h with
  | refl => exact Reaches.step Reaches.refl hc
  | step h hc' ih => exact Reaches.step ih hc'

/-- Child-loop version of the traversal invariant: the freeing set only
grows, the release log is duplicate-free, and it holds exactly the nodes
newly added to the freeing set. -/
theorem freeChildrenF_spec_of {k : Nat} (G : ConsumerGraph k) (fuel : Nat)
    (hcyc : ∀ (n : Fin k) freeing f' log,
      freeCyclesF G fuel n freeing = some (f', log) →
      freeing ⊆ f' ∧ log.Nodup ∧ ∀ m, m ∈ log ↔ m ∈ f' ∧ m ∉ freeing) :
    ∀ (cs : List (Option (Fin k))) freeing f' log,
      freeChildrenF G fuel cs freeing = some (f', log) →
      freeing ⊆ f' ∧ log.Nodup ∧ ∀ m, m ∈ log ↔ m ∈ f' ∧ m ∉ freeing := by
  intro cs
  induction cs with
  | nil =>
    intro freeing f' log h
    simp only [freeChildrenF, Option.some.injEq, Prod.mk.injEq] at h
    obtain ⟨h1, h2⟩ := h
    subst h1 h2
    exact ⟨Finset.Subset.refl _, List.nodup_nil, by simp⟩
  | cons c rest ih =>
    intro freeing f' log h
    cases c with
    | none =>
      simp only [freeChildrenF] at h
      exact ih freeing f' log h
    | some c =>
      simp only [freeChildrenF] at h
      cases hc1 : freeCyclesF G fuel c freeing with
      | none => rw [hc1] at h; exact absurd h (by simp)
      | some p1 =>
        obtain ⟨f1, l1⟩ := p1
        rw [hc1] at h
        simp only [] at h
        cases hc2 : freeChildrenF G fuel rest f1 with
        | none => rw [hc2] at h; exact absurd h (by simp)
        | some p2 =>
          obtain ⟨f2, l2⟩ := p2
          rw [hc2] at h
          simp only [Option.some.injEq, Prod.mk.injEq] at h
          obtain ⟨h1, h2⟩ := h
          subst h1 h2
          obtain ⟨hs1, hn1, hm1⟩ := hcyc c freeing f1 l1 hc1
          obtain ⟨hs2, hn2, hm2⟩ := ih f1 f2 l2 hc2
          refine ⟨hs1.trans hs2, ?_, ?_⟩
          · rw [List.nodup_append]
            refine ⟨hn1, hn2, fun x hx1 hx2 => ?_⟩
            exact ((hm2 x).mp hx2).2 (((hm1 x).mp hx1).1)
          · intro m
            rw [List.mem_append, hm1, hm2]
            constructor
            · rintro (⟨hf, hfr⟩ | ⟨hf, hf1⟩)
              · exact ⟨hs2 hf, hfr⟩
              · exact ⟨hf, fun hfr => hf1 (hs1 hfr)⟩
            · rintro ⟨hf, hfr⟩
              by_cases h1 : m ∈ f1
              · exact Or.inl ⟨h1, hfr⟩
              · exact Or.inr ⟨hf, h1⟩

/-- Traversal invariant for `avro_consumer_free_cycles`: the freeing set only
grows, and the log of released consumers is exactly the set of newly visited
nodes, each exactly once. -/
theorem freeCyclesF_spec {k : Nat} (G : ConsumerGraph k) (fuel : Nat) :
    ∀ (n : Fin k) freeing f' log,
      freeCyclesF G fuel n freeing = some (f', log) →
      freeing ⊆ f' ∧ log.Nodup ∧ ∀ m, m ∈ log ↔ m ∈ f' ∧ m ∉ freeing := by
  induction fuel with
  | zero => intro n freeing f' log h; simp [freeCyclesF] at h
  | succ fuel ih =>
    intro n freeing f' log h
    simp only [freeCyclesF] at h
    by_cases hn : n ∈ freeing
    · rw [if_pos hn] at h
      simp only [Option.some.injEq, Prod.mk.injEq] at h
      obtain ⟨h1, h2⟩ := h
      subst h1 h2
      exact ⟨Finset.Subset.refl _, List.nodup_nil, by simp⟩
    · rw [if_neg hn] at h
      cases hch : freeChildrenF G fuel (G n) (insert n freeing) with
      | none => rw [hch] at h; exact absurd h (by simp)
      | some p =>
        obtain ⟨f2, clog⟩ := p
        rw [hch] at h
        simp only [Option.some.injEq, Prod.mk.injEq] at h
        obtain ⟨h1, h2⟩ := h
        subst h1 h2
        obtain ⟨hsub, hnd, hmem⟩ :=
          freeChildrenF_spec_of G fuel ih (G n) (insert n freeing) f2 clog hch
        have hnf : n ∈ f2 := hsub (Finset.mem_insert_self n freeing)
        refine ⟨(Finset.subset_insert n freeing).trans hsub, ?_, ?_⟩
        · rw [List.nodup_append]
          refine ⟨hnd, List.nodup_singleton n, fun x hx1 hx2 => ?_⟩
          rw [List.mem_singleton] at hx2
          subst hx2
          exact ((hmem x).mp hx1).2 (Finset.mem_insert_self x freeing)
        · intro m
          rw [List.mem_append, hmem, List.mem_singleton]
          constructor
          · rintro (⟨hf, hfr⟩ | rfl)
            · exact ⟨hf, fun hm => hfr (Finset.mem_insert_of_mem hm)⟩
            · exact ⟨hnf, hn⟩
          · rintro ⟨hf, hfr⟩
            by_cases hmn : m = n
            · exact Or.inr hmn
            · exact Or.inl ⟨hf, by simp [Finset.mem_insert, hmn, hfr]⟩

/-- Traversal invariant, child-loop form, closed over the node form. -/
theorem freeChildrenF_spec {k : Nat} (G : ConsumerGraph k) (fuel : Nat) :
    ∀ (cs : List (Option (Fin k))) freeing f' log,
      freeChildrenF G fuel cs freeing = some (f', log) →
      freeing ⊆ f' ∧ log.Nodup ∧ ∀ m, m ∈ log ↔ m ∈ f' ∧ m ∉ freeing :=
  freeChildrenF_spec_of G fuel (freeCyclesF_spec G fuel)

/-- Fuel sufficiency, child-loop version: if every node call with this fuel
succeeds, so does every child loop. -/
theorem freeChildrenF_some_of {k : Nat} (G : ConsumerGraph k) (fuel : Nat)
    (hcyc : ∀ (n : Fin k) freeing,
      ((Finset.univ : Finset (Fin k)) \ freeing).card < fuel →
      ∃ p, freeCyclesF G fuel n freeing = some p ∧ freeing ⊆ p.1) :
    ∀ (cs : List (Option (Fin k))) freeing,
      ((Finset.univ : Finset (Fin k)) \ freeing).card < fuel →
      ∃ p, freeChildrenF G fuel cs freeing = some p ∧ freeing ⊆ p.1 := by
  intro cs
  induction cs with
  | nil =>
    intro freeing _
    exact ⟨(freeing, []), by simp [freeChildrenF], Finset.Subset.refl _⟩
  | cons c rest ih =>
    intro freeing hcard
    cases c with
    | none =>
      obtain ⟨p, hp, hs⟩ := ih freeing hcard
      exact ⟨p, by simpa [freeChildrenF] using hp, hs⟩
    | some c =>
      obtain ⟨⟨f1, l1⟩, hc1, hs1⟩ := hcyc c freeing hcard
      have hcard1 : ((Finset.univ : Finset (Fin k)) \ f1).card < fuel :=
        lt_of_le_of_lt
          (Finset.card_le_card (Finset.sdiff_subset_sdiff
            (Finset.Subset.refl _) hs1)) hcard
      obtain ⟨⟨f2, l2⟩, hc2, hs2⟩ := ih f1 hcard1
      exact ⟨(f2, l1 ++ l2), by simp [freeChildrenF, hc1, hc2],
        hs1.trans hs2⟩

/-- Fuel sufficiency: `avro_consumer_free_cycles` completes whenever the fuel
exceeds the number of not-yet-visited consumers — the termination argument
for the C recursion: each level either hits the freeing set or shrinks the
set of unvisited nodes. -/
theorem freeCyclesF_some {k : Nat} (G : ConsumerGraph k) (fuel : Nat) :
    ∀ (n : Fin k) freeing,
      ((Finset.univ : Finset (Fin k)) \ freeing).card < fuel →
      ∃ p, freeCyclesF G fuel n freeing = some p ∧ freeing ⊆ p.1 := by
  induction fuel with
  | zero => intro n freeing h; omega
  | succ fuel ih =>
    intro n freeing hcard
    by_cases hn : n ∈ freeing
    · exact ⟨(freeing, []), by simp [freeCyclesF, hn], Finset.Subset.refl _⟩
    · have hins : (Finset.univ : Finset (Fin k)) \ insert n freeing =
          ((Finset.univ : Finset (Fin k)) \ freeing).erase n := by
        ext x
        simp only [Finset.mem_sdiff, Finset.mem_insert, Finset.mem_erase,
          Finset.mem_univ, true_and]
        tauto
      have hmemn : n ∈ (Finset.univ : Finset (Fin k)) \ freeing := by
        simp [hn]
      have hcard1 :
          ((Finset.univ : Finset (Fin k)) \ insert n freeing).card < fuel := by
        rw [hins, Finset.card_erase_of_mem hmemn]
        have hpos : 0 < ((Finset.univ : Finset (Fin k)) \ freeing).card :=
          Finset.card_pos.mpr ⟨n, hmemn⟩
        omega
      obtain ⟨⟨f2, clog⟩, hch, hs⟩ :=
        freeChildrenF_some_of G fuel ih (G n) (insert n freeing) hcard1
      exact ⟨(f2, clog ++ [n]), by simp [freeCyclesF, hn, hch],
        (Finset.subset_insert n freeing).trans hs⟩

/-- Everything the child loop visits was already in the freeing set or is
reachable from one of the children. -/
theorem freeChildrenF_reach_of {k : Nat} (G : ConsumerGraph k) (fuel : Nat)
    (hcyc : ∀ (n : Fin k) freeing f' log,
      freeCyclesF G fuel n freeing = some (f', log) →
      ∀ m ∈ f', m ∈ freeing ∨ Reaches G n m) :
    ∀ (cs : List (Option (Fin k))) freeing f' log,
      freeChildrenF G fuel cs freeing = some (f', log) →
      ∀ m ∈ f', m ∈ freeing ∨ ∃ c, some c ∈ cs ∧ Reaches G c m := by
  intro cs
  induction cs with
  | nil =>
    intro freeing f' log h m hm
    simp only [freeChildrenF, Option.some.injEq, Prod.mk.injEq] at h
    exact Or.inl (h.1 ▸ hm)
  | cons c rest ih =>
    intro freeing f' log h m hm
    cases c with
    | none =>
      simp only [freeChildrenF] at h
      rcases ih freeing f' log h m hm with h1 | ⟨c', hc', hr⟩
      · exact Or.inl h1
      · exact Or.inr ⟨c', List.mem_cons_of_mem _ hc', hr⟩
    | some c =>
      simp only [freeChildrenF] at h
      cases hc1 : freeCyclesF G fuel c freeing with
      | none => rw [hc1] at h; exact absurd h (by simp)
      | some p1 =>
        obtain ⟨f1, l1⟩ := p1
        rw [hc1] at h
        simp only [] at h
        cases hc2 : freeChildrenF G fuel rest f1 with
        | none => rw [hc2] at h; exact absurd h (by simp)
        | some p2 =>
          obtain ⟨f2, l2⟩ := p2
          rw [hc2] at h
          simp only [Option.some.injEq, Prod.mk.injEq] at h
          obtain ⟨h1, -⟩ := h
          subst h1
          rcases ih f1 f2 l2 hc2 m hm with h1 | ⟨c', hc', hr⟩
          · rcases hcyc c freeing f1 l1 hc1 m h1 with h2 | h2
            · exact Or.inl h2
            · exact Or.inr ⟨c, List.mem_cons_self _ _, h2⟩
          · exact Or.inr ⟨c', List.mem_cons_of_mem _ hc', hr⟩

/-- Everything `avro_consumer_free_cycles` visits was already in the freeing
set or is reachable from the node it started at. -/
theorem freeCyclesF_reach {k : Nat} (G : ConsumerGraph k) (fuel : Nat) :
    ∀ (n : Fin k) freeing f' log,
      freeCyclesF G fuel n freeing = some (f', log) →
      ∀ m ∈ f', m ∈ freeing ∨ Reaches G n m := by
  induction fuel with
  | zero => intro n freeing f' log h; simp [freeCyclesF] at h
  | succ fuel ih =>
    intro n freeing f' log h m hm
    simp only [freeCyclesF] at h
    by_cases hn : n ∈ freeing
    · rw [if_pos hn] at h
      simp only [Option.some.injEq, Prod.mk.injEq] at h
      exact Or.inl (h.1 ▸ hm)
    · rw [if_neg hn] at h
      cases hch : freeChildrenF G fuel (G n) (insert n freeing) with
      | none => rw [hch] at h; exact absurd h (by simp)
      | some p =>
        obtain ⟨f2, clog⟩ := p
        rw [hch] at h
        simp only [Option.some.injEq, Prod.mk.injEq] at h
        obtain ⟨h1, -⟩ := h
        subst h1
        rcases freeChildrenF_reach_of G fuel ih (G n) (insert n freeing)
          f2 clog hch m hm with h1 | ⟨c, hc, hr⟩
        · rcases Finset.mem_insert.mp h1 with rfl | h2
          · exact Or.inr Reaches.refl
          · exact Or.inl h2
        · exact Or.inr (Reaches.prepend hc hr)

/-- The child loop puts every listed child in the final freeing set, and the
final set is edge-closed outside the initial freeing set. -/
theorem freeChildrenF_closed_of {k : Nat} (G : ConsumerGraph k) (fuel : Nat)
    (hcyc : ∀ (n : Fin k) freeing f' log,
      freeCyclesF G fuel n freeing = some (f', log) →
      n ∈ f' ∧ ∀ m ∈ f', m ∉ freeing → ∀ c, some c ∈ G m → c ∈ f') :
    ∀ (cs : List (Option (Fin k))) freeing f' log,
      freeChildrenF G fuel cs freeing = some (f', log) →
      (∀ c, some c ∈ cs → c ∈ f') ∧
      (∀ m ∈ f', m ∉ freeing → ∀ c, some c ∈ G m → c ∈ f') := by
  intro cs
  induction cs with
  | nil =>
    intro freeing f' log h
    simp only [freeChildrenF, Option.some.injEq, Prod.mk.injEq] at h
    obtain ⟨h1, -⟩ := h
    subst h1
    exact ⟨fun c hc => absurd hc (by simp),
      fun m hm hnm _ _ => absurd hm hnm⟩
  | cons c rest ih =>
    intro freeing f' log h
    cases c with
    | none =>
      simp only [freeChildrenF] at h
      obtain ⟨hfirst, hcl⟩ := ih freeing f' log h
      refine ⟨fun c' hc' => ?_, hcl⟩
      rcases List.mem_cons.mp hc' with h1 | h1
      · exact absurd h1 (by simp)
      · exact hfirst c' h1
    | some c =>
      simp only [freeChildrenF] at h
      cases hc1 : freeCyclesF G fuel c freeing with
      | none => rw [hc1] at h; exact absurd h (by simp)
      | some p1 =>
        obtain ⟨f1, l1⟩ := p1
        rw [hc1] at h
        simp only [] at h
        cases hc2 : freeChildrenF G fuel rest f1 with
        | none => rw [hc2] at h; exact absurd h (by simp)
        | some p2 =>
          obtain ⟨f2, l2⟩ := p2
          rw [hc2] at h
          simp only [Option.some.injEq, Prod.mk.injEq] at h
          obtain ⟨h1, -⟩ := h
          subst h1
          obtain ⟨hc_in, hcl1⟩ := hcyc c freeing f1 l1 hc1
          obtain ⟨hfirst2, hcl2⟩ := ih f1 f2 l2 hc2
          have hmono : f1 ⊆ f2 :=
            (freeChildrenF_spec G fuel rest f1 f2 l2 hc2).1
          refine ⟨fun c' hc' => ?_, fun m hm hnm c' hc' => ?_⟩
          · rcases List.mem_cons.mp hc' with h1 | h1
            · rw [Option.some.injEq] at h1
              exact hmono (h1 ▸ hc_in)
            · exact hfirst2 c' h1
          · by_cases hmf1 : m ∈ f1
            · exact hmono (hcl1 m hmf1 hnm c' hc')
            · exact hcl2 m hm hmf1 c' hc'

/-- `avro_consumer_free_cycles` visits the node it starts at, and its final
freeing set is closed under child edges outside the initial freeing set. -/
theorem freeCyclesF_closed {k : Nat} (G : ConsumerGraph k) (fuel : Nat) :
    ∀ (n : Fin k) freeing f' log,
      freeCyclesF G fuel n freeing = some (f', log) →
      n ∈ f' ∧ ∀ m ∈ f', m ∉ freeing → ∀ c, some c ∈ G m → c ∈ f' := by
  induction fuel with
  | zero => intro n freeing f' log h; simp [freeCyclesF] at h
  | succ fuel ih =>
    intro n freeing f' log h
    simp only [freeCyclesF] at h
    by_cases hn : n ∈ freeing
    · rw [if_pos hn] at h
      simp only [Option.some.injEq, Prod.mk.injEq] at h
      obtain ⟨h1, -⟩ := h
      subst h1
      exact ⟨hn, fun m hm hnm _ _ => absurd hm hnm⟩
    · rw [if_neg hn] at h
      cases hch : freeChildrenF G fuel (G n) (insert n freeing) with
      | none => rw [hch] at h; exact absurd h (by simp)
      | some p =>
        obtain ⟨f2, clog⟩ := p
        rw [hch] at h
        simp only [Option.some.injEq, Prod.mk.injEq] at h
        obtain ⟨h1, -⟩ := h
        subst h1
        obtain ⟨hfirst, hcl⟩ :=
          freeChildrenF_closed_of G fuel ih (G n) (insert n freeing)
            f2 clog hch
        have hsub : insert n freeing ⊆ f2 :=
          (freeChildrenF_spec G fuel (G n) (insert n freeing) f2 clog hch).1
        refine ⟨hsub (Finset.mem_insert_self n freeing),
          fun m hm hnm c hc => ?_⟩
        by_cases hmn : m = n
        · subst hmn
          exact hfirst c hc
        · exact hcl m hm (by simp [Finset.mem_insert, hmn, hnm]) c hc

/-- C5 (confirmed).  On every finite consumer graph, cycles included,
`avro_consumer_free` terminates (fuel `k + 1` always suffices, because each
recursive level either finds the consumer already in the visited set or
shrinks the set of unvisited consumers), and the release log — the sequence
of consumers whose schema decref and `free` callback ran — contains each
consumer reachable from the root exactly once and nothing else. -/
theorem c5_consumer_free_exactly_once (k : Nat) (G : ConsumerGraph k)
    (root : Fin k) :
    ∃ p, consumerFree G root = some p ∧ p.2.Nodup ∧
      ∀ m, m ∈ p.2 ↔ Reaches G root m := by
  have hcard : ((Finset.univ : Finset (Fin k)) \ ∅).card < k + 1 := by
    simp [Finset.card_univ]
  obtain ⟨⟨f', log⟩, hrun, -⟩ := freeCyclesF_some G (k + 1) root ∅ hcard
  obtain ⟨-, hnd, hmem⟩ := freeCyclesF_spec G (k + 1) root ∅ f' log hrun
  obtain ⟨hroot, hcl⟩ := freeCyclesF_closed G (k + 1) root ∅ f' log hrun
  have hreach := freeCyclesF_reach G (k + 1) root ∅ f' log hrun
  refine ⟨(f', log), hrun, hnd, fun m => ⟨fun hm => ?_, fun hr => ?_⟩⟩
  · rcases hreach m ((hmem m).mp hm).1 with h | h
    · exact absurd h (by simp)
    · exact h
  · have hf : m ∈ f' := by
      induction hr with
      | refl => exact hroot
      | step h hc ih => exact hcl _ ih (by simp) _ hc
    exact (hmem m).mpr ⟨hf, by simp⟩

end Avro
